import Mathlib

/-!
Verification of the dice repository (`main.py`).

The program enumerates all "non-standard dice" (non-increasing tuples of face
values), compares every ordered pair with `is_best`, builds a win/lose relation
graph, and prunes it to a fixed point with `clean`.  Below is a shallow
embedding of that source: dice are lists of naturals, the graph is an
association list from a die to its (win list, lose list) pair, mirroring the
Python dict (insertion ordered, unique keys).
-/

/-- Default lower face value from the source (`MIN_VALUE = 0`). -/
def MIN_VALUE : Nat := 0

/-- Default upper face value from the source (`MAX_VALUE = 4`). -/
def MAX_VALUE : Nat := 4

/-- Default number of sides from the source (`SIDES = 4`). -/
def SIDES : Nat := 4

/-- A die: the tuple of its face values (the source represents dice as
tuples of non-negative integers, sorted in descending order). -/
abbrev Die := List Nat

/-- Embedding of `die_generator` from the source: iterate `first_side` over
`range(min_value, max_value + 1)`; for `sides == 1` yield the singleton,
otherwise recurse with `min_value = 0`, `max_value = first_side`,
`sides - 1` and prepend `first_side`.  For `sides = 0` the source recursion
never reaches its base case (undefined behaviour, noted as such in the
repository design); we return `[]` there and every claim below concerns
`sides ≥ 1` only. -/
def die_generator (min_value max_value : Nat) (sides : Nat) : List Die :=
  match sides with
  | 0 => []
  | s + 1 =>
    (List.range' min_value (max_value + 1 - min_value)).flatMap (fun first_side =>
      if s = 0 then [[first_side]]
      else (die_generator 0 first_side s).map (fun die => first_side :: die))


/-- The body of the generator loop for a fixed `first_side` value `v`
(proof-side abbreviation; `die_generator m M (s+1)` is, definitionally, the
concatenation of `die_block s v` over the range of first sides). -/
def die_block (s : Nat) (v : Nat) : List Die :=
  if s = 0 then [[v]]
  else (die_generator 0 v s).map (fun die => v :: die)

/-- Embedding of `is_best` from the source: `count` pairs where `this`'s side is strictly
greater, `ties` pairs with equal sides, and return
`count > total - ties - count` (Python integer arithmetic, hence `Int`). -/
def is_best (this oponent : Die) : Bool :=
  let total := this.length * oponent.length
  let count := (this.map (fun side1 =>
    (oponent.filter (fun side2 => decide (side2 < side1))).length)).sum
  let ties := (this.map (fun side1 =>
    (oponent.filter (fun side2 => decide (side2 = side1))).length)).sum
  decide ((total : Int) - (ties : Int) - (count : Int) < (count : Int))

/-- The relation graph: an association list from a die to the pair
(win list, lose list), mirroring the Python `dict` which is insertion
ordered with unique keys. -/
abbrev Graph := List (Die × (List Die × List Die))

/-- The keys of the graph, in order. -/
def keys (g : Graph) : List Die := g.map (fun e => e.1)

/-- Dict lookup of the win list (`graph[d][0]`); `[]` when `d` is absent. -/
def getWins : Graph → Die → List Die
  | [], _ => []
  | e :: g, d => if e.1 = d then e.2.1 else getWins g d

/-- Dict lookup of the lose list (`graph[d][1]`); `[]` when `d` is absent. -/
def getLoses : Graph → Die → List Die
  | [], _ => []
  | e :: g, d => if e.1 = d then e.2.2 else getLoses g d

/-- Embedding of `graph[key][0].append(val)` with
`defaultdict(lambda: ([], []))` semantics: update the entry in place when present, otherwise insert a fresh
entry at the end (dict insertion order). -/
def appendWin (g : Graph) (key val : Die) : Graph :=
  if key ∈ keys g then
    g.map (fun e => if e.1 = key then (e.1, (e.2.1 ++ [val], e.2.2)) else e)
  else g ++ [(key, ([val], []))]

/-- Embedding of `graph[key][1].append(val)` with defaultdict semantics. -/
def appendLose (g : Graph) (key val : Die) : Graph :=
  if key ∈ keys g then
    g.map (fun e => if e.1 = key then (e.1, (e.2.1, e.2.2 ++ [val])) else e)
  else g ++ [(key, ([], [val]))]

/-- One iteration of the inner loop of `main`: record `this → oponent`
when `is_best this oponent`. -/
def build_step (this : Die) (g : Graph) (oponent : Die) : Graph :=
  if is_best this oponent then appendLose (appendWin g this oponent) oponent this
  else g

/-- The double loop of `main`: evaluate the full cross product of the die
list with itself, starting from the empty graph. -/
def build_graph (dice : List Die) : Graph :=
  dice.foldl (fun g this => dice.foldl (build_step this) g) []

/-- Intermediate state of the double loop of `main`: the outer loop has
fully processed the dice in `done` (each against the whole `dice` list), and
the current outer die `cur` has been compared against the opponents in
`innerDone` so far. -/
def build_upto (dice done : List Die) (cur : Die) (innerDone : List Die) : Graph :=
  innerDone.foldl (build_step cur)
    (done.foldl (fun g this => dice.foldl (build_step this) g) [])

/-- The per-pass deletion candidates of `clean`: dice whose win list or
lose list is empty, in graph order. -/
def to_delete (graph : Graph) : List Die :=
  (graph.filter (fun e =>
    decide (e.2.1.length = 0) || decide (e.2.2.length = 0))).map (fun e => e.1)

/-- The reference-removal loop of `clean`:
`for die in to_delete: if die in l: l.remove(die)` (Python `list.remove`
deletes the first occurrence). -/
def removeAll (td : List Die) (l : List Die) : List Die :=
  td.foldl (fun acc die => if die ∈ acc then acc.erase die else acc) l

/-- One pass of `clean`'s `while` loop: delete the entries named by
`to_delete`, then strip the deleted dice from every remaining win and lose
list. -/
def clean_pass (graph : Graph) : Graph :=
  let td := to_delete graph
  (graph.filter (fun e => decide (e.1 ∉ td))).map
    (fun e => (e.1, (removeAll td e.2.1, removeAll td e.2.2)))

/-- Embedding of `clean` from the source: repeat `clean_pass` until a pass identifies
nothing to delete.  Termination: a deleting pass strictly shrinks the
graph (the spec's own argument, re-proved as theorem
`clean_pass_length_lt` below). -/
def clean (graph : Graph) : Graph :=
  if h : to_delete graph = [] then graph
  else clean (clean_pass graph)
termination_by graph.length
decreasing_by
  unfold clean_pass
  simp only [List.length_map]
  apply List.length_filter_lt_length_iff_exists.mpr
  have h2 : (graph.filter (fun e =>
      decide (e.2.1.length = 0) || decide (e.2.2.length = 0))) ≠ [] := by
    intro hnil
    apply h
    unfold to_delete
    rw [hnil]
    rfl
  rcases List.exists_mem_of_ne_nil _ h2 with ⟨e, he⟩
  rcases List.mem_filter.mp he with ⟨heg, _⟩
  refine ⟨e, heg, ?_⟩
  have : e.1 ∈ to_delete graph := List.mem_map.mpr ⟨e, he, rfl⟩
  simp [this]

/-- Number of ordered face pairs `(a, b)` of `A × B` where `A`'s face is
strictly greater (the spec's win count, stated directly over the cross
product of the faces). -/
def winPairs (A B : Die) : Nat :=
  ((A ×ˢ B).filter (fun p => decide (p.2 < p.1))).length

/-- Number of ordered face pairs of `A × B` with equal values (the spec's
tie count). -/
def tiePairs (A B : Die) : Nat :=
  ((A ×ˢ B).filter (fun p => decide (p.2 = p.1))).length

/-- The `count` accumulator of `is_best this oponent` (wins of the first
die), written as the source computes it: a sum over the first die's sides of
per-side win counts. -/
def winSum (A B : Die) : Nat :=
  (A.map (fun side1 => (B.filter (fun side2 => decide (side2 < side1))).length)).sum

/-- The `ties` accumulator of `is_best this oponent`. -/
def tieSum (A B : Die) : Nat :=
  (A.map (fun side1 => (B.filter (fun side2 => decide (side2 = side1))).length)).sum

/-- The pairs won by the second die, summed over the first die's sides. -/
def revSum (A B : Die) : Nat :=
  (A.map (fun side1 => (B.filter (fun side2 => decide (side1 < side2))).length)).sum

/-! ### Counting helpers for the comparator -/


/-- A deleting pass strictly shrinks the graph. -/
theorem clean_pass_length_lt (g : Graph) (h : to_delete g ≠ []) :
    (clean_pass g).length < g.length := by
  unfold clean_pass
  simp only [List.length_map]
  apply List.length_filter_lt_length_iff_exists.mpr
  have h2 : (g.filter (fun e =>
      decide (e.2.1.length = 0) || decide (e.2.2.length = 0))) ≠ [] := by
    intro hnil
    apply h
    unfold to_delete
    rw [hnil]
    rfl
  rcases List.exists_mem_of_ne_nil _ h2 with ⟨e, he⟩
  rcases List.mem_filter.mp he with ⟨heg, _⟩
  refine ⟨e, heg, ?_⟩
  have : e.1 ∈ to_delete g := List.mem_map.mpr ⟨e, he, rfl⟩
  simp [this]

/-- Lemma: `clean` stops immediately when nothing qualifies for deletion. -/
theorem clean_of_empty (g : Graph) (h : to_delete g = []) : clean g = g := by
  rw [clean]
  simp [h]

/-- Lemma: `clean` loops when a pass deletes something. -/
theorem clean_of_nonempty (g : Graph) (h : to_delete g ≠ []) :
    clean g = clean (clean_pass g) := by
  rw [clean]
  simp [h]

theorem sum_map_add_nat {α : Type} (f g : α → Nat) (l : List α) :
    (l.map (fun x => f x + g x)).sum = (l.map f).sum + (l.map g).sum := by
  induction l with
  | nil => rfl
  | cons a l ih => simp only [List.map_cons, List.sum_cons, ih]; omega

theorem sum_map_const_nat {α : Type} (n : Nat) (l : List α) :
    (l.map (fun _ => n)).sum = l.length * n := by
  induction l with
  | nil => simp
  | cons a l ih =>
    simp only [List.map_cons, List.sum_cons, List.length_cons, ih]
    ring

theorem length_filter_eq_sum_ind (p : Nat → Bool) (B : List Nat) :
    (B.filter p).length = (B.map (fun b => if p b then 1 else 0)).sum := by
  induction B with
  | nil => rfl
  | cons b B ih =>
    rw [List.filter_cons]
    by_cases h : p b = true <;> simp [h, ih] <;> omega

/-- Double counting: summing per-element match counts over `A` equals
summing them over `B`. -/
theorem sum_count_comm (q : Nat → Nat → Bool) (A B : List Nat) :
    (A.map (fun a => (B.filter (fun b => q a b)).length)).sum
      = (B.map (fun b => (A.filter (fun a => q a b)).length)).sum := by
  induction A with
  | nil => simp
  | cons a A ih =>
    simp only [List.map_cons, List.sum_cons, ih]
    have hmap : B.map (fun b => ((a :: A).filter (fun x => q x b)).length)
        = B.map (fun b =>
          (if q a b then 1 else 0) + (A.filter (fun x => q x b)).length) := by
      apply List.map_congr_left
      intro b _
      rw [List.filter_cons]
      by_cases h : q a b = true <;> simp [h] <;> omega
    rw [hmap, sum_map_add_nat, ← length_filter_eq_sum_ind]

/-- Trichotomy of face comparisons: the strictly-smaller, equal and
strictly-greater counts of `B` against a fixed value partition `B`. -/
theorem filter_tri_length (a : Nat) (B : List Nat) :
    (B.filter (fun b => decide (b < a))).length
      + (B.filter (fun b => decide (b = a))).length
      + (B.filter (fun b => decide (a < b))).length = B.length := by
  induction B with
  | nil => rfl
  | cons b B ih =>
    simp only [List.filter_cons]
    rcases Nat.lt_trichotomy b a with h | h | h
    · have h2 : ¬(b = a) := by omega
      have h3 : ¬(a < b) := by omega
      simp only [decide_eq_true h, decide_eq_false h2, decide_eq_false h3]
      simp only [Bool.false_eq_true, if_false, if_true, List.length_cons]
      omega
    · have h1 : ¬(b < a) := by omega
      have h3 : ¬(a < b) := by omega
      simp only [decide_eq_true h, decide_eq_false h1, decide_eq_false h3]
      simp only [Bool.false_eq_true, if_false, if_true, List.length_cons]
      omega
    · have h1 : ¬(b < a) := by omega
      have h2 : ¬(b = a) := by omega
      simp only [decide_eq_true h, decide_eq_false h1, decide_eq_false h2]
      simp only [Bool.false_eq_true, if_false, if_true, List.length_cons]
      omega

/-- The three counts of `is_best` partition all `m × n` face pairs. -/
theorem count_ties_rev_total (A B : List Nat) :
    (A.map (fun a => (B.filter (fun b => decide (b < a))).length)).sum
      + (A.map (fun a => (B.filter (fun b => decide (b = a))).length)).sum
      + (A.map (fun a => (B.filter (fun b => decide (a < b))).length)).sum
      = A.length * B.length := by
  rw [← sum_map_add_nat, ← sum_map_add_nat]
  have : (A.map (fun a => (B.filter (fun b => decide (b < a))).length
      + (B.filter (fun b => decide (b = a))).length
      + (B.filter (fun b => decide (a < b))).length))
      = A.map (fun _ => B.length) :=
    List.map_congr_left (fun a _ => filter_tri_length a B)
  rw [this, sum_map_const_nat]


theorem is_best_char (A B : Die) : is_best A B = true ↔
    (A.length * B.length : Int) - tieSum A B - winSum A B < winSum A B := by
  simp only [is_best, winSum, tieSum, decide_eq_true_eq]
  omega

theorem winSum_tri (A B : Die) :
    winSum A B + tieSum A B + revSum A B = A.length * B.length := by
  simpa only [winSum, tieSum, revSum] using count_ties_rev_total A B

theorem revSum_eq_winSum_swap (A B : Die) : revSum A B = winSum B A := by
  simpa only [winSum, revSum] using
    sum_count_comm (fun a b => decide (a < b)) A B

theorem tieSum_comm (A B : Die) : tieSum A B = tieSum B A := by
  unfold tieSum
  rw [sum_count_comm (fun a b => decide (b = a)) A B]
  congr 1
  apply List.map_congr_left
  intro b _
  congr 1
  apply List.filter_congr
  intro a _
  exact decide_eq_decide.mpr eq_comm

/-- Filtering the cross product equals summing per-element filter counts. -/
theorem length_filter_product (p : Nat → Nat → Bool) (A B : List Nat) :
    ((A ×ˢ B).filter (fun x => p x.1 x.2)).length
      = (A.map (fun a => (B.filter (fun b => p a b)).length)).sum := by
  induction A with
  | nil => rfl
  | cons a A ih =>
    rw [List.product_cons, List.filter_append, List.length_append, ih,
      List.filter_map]
    simp only [List.length_map, List.map_cons, List.sum_cons]
    rfl

theorem winPairs_eq_winSum (A B : Die) : winPairs A B = winSum A B := by
  simpa only [winPairs, winSum] using
    length_filter_product (fun a b => decide (b < a)) A B

theorem tiePairs_eq_tieSum (A B : Die) : tiePairs A B = tieSum A B := by
  simpa only [tiePairs, tieSum] using
    length_filter_product (fun a b => decide (b = a)) A B

/-- C3: `is_best A B` returns true exactly when the number of ordered face
pairs won by `A` strictly exceeds `m*n` minus the tied pairs minus that same
win count; as a Lean function of its two arguments it is pure by
construction. -/
theorem is_best_iff_spec_counts (A B : Die) :
    is_best A B = true ↔
      (A.length * B.length : Int) - tiePairs A B - winPairs A B
        < winPairs A B := by
  rw [is_best_char, winPairs_eq_winSum, tiePairs_eq_tieSum]

/-- C4: the comparator is anti-symmetric: two distinct dice are never each
declared better than the other. -/
theorem is_best_antisymm (A B : Die) (h : A ≠ B) :
    ¬(is_best A B = true ∧ is_best B A = true) := by
  rintro ⟨h1, h2⟩
  rw [is_best_char] at h1 h2
  have e1 := winSum_tri A B
  have e2 := revSum_eq_winSum_swap A B
  have e3 := tieSum_comm A B
  have e4 : B.length * A.length = A.length * B.length := Nat.mul_comm _ _
  omega

/-- Witness for `is_best_antisymm` at the concrete dice `[1]` and `[0]`. -/
theorem is_best_antisymm_witness :
    ([1] : Die) ≠ [0] ∧ ¬(is_best [1] [0] = true ∧ is_best [0] [1] = true) :=
  ⟨by decide, is_best_antisymm [1] [0] (by decide)⟩

/-! ### Structure of the die generator -/

theorem die_generator_succ (m M s : Nat) :
    die_generator m M (s + 1)
      = (List.range' m (M + 1 - m)).flatMap (die_block s) := rfl

/-- Hockey-stick identity along a `range'`. -/
theorem sum_choose_range' (k : Nat) : ∀ n m : Nat,
    ((List.range' m n).map (fun v => Nat.choose (v + k) k)).sum
        + Nat.choose (m + k) (k + 1)
      = Nat.choose (m + n + k) (k + 1) := by
  intro n
  induction n with
  | zero => intro m; simp
  | succ n ih =>
    intro m
    rw [List.range'_succ]
    simp only [List.map_cons, List.sum_cons]
    have hih := ih (m + 1)
    have h1 : m + 1 + k = m + k + 1 := by omega
    rw [h1] at hih
    have h2 : m + 1 + n + k = m + (n + 1) + k := by omega
    rw [h2] at hih
    have hp : Nat.choose (m + k) k + Nat.choose (m + k) (k + 1)
        = Nat.choose (m + k + 1) (k + 1) := (Nat.choose_succ_succ' (m + k) k).symm
    omega

/-- The generated count for `min_value = 0` is the stars-and-bars number. -/
theorem length_die_generator (s : Nat) : ∀ M : Nat,
    (die_generator 0 M (s + 1)).length = Nat.choose (M + (s + 1)) (s + 1) := by
  induction s with
  | zero =>
    intro M
    rw [die_generator_succ, List.length_flatMap]
    have hm : (List.range' 0 (M + 1 - 0)).map (List.length ∘ die_block 0)
        = (List.range' 0 (M + 1 - 0)).map (fun _ => 1) :=
      List.map_congr_left (fun v _ => by simp [die_block])
    rw [hm, sum_map_const_nat, List.length_range']
    rw [Nat.choose_one_right]
    omega
  | succ s ih =>
    intro M
    rw [die_generator_succ, List.length_flatMap]
    have hm : (List.range' 0 (M + 1 - 0)).map (List.length ∘ die_block (s + 1))
        = (List.range' 0 (M + 1 - 0)).map
            (fun v => Nat.choose (v + (s + 1)) (s + 1)) :=
      List.map_congr_left (fun v _ => by
        simp only [Function.comp, die_block, Nat.succ_ne_zero, if_false,
          List.length_map]
        exact ih v)
    rw [hm]
    have hs := sum_choose_range' (s + 1) (M + 1 - 0) 0
    have h0 : Nat.choose (0 + (s + 1)) (s + 1 + 1) = 0 :=
      Nat.choose_eq_zero_of_lt (by omega)
    have h1 : 0 + (M + 1 - 0) + (s + 1) = M + (s + 1 + 1) := by omega
    rw [h0, h1] at hs
    omega

/-- Every member of `die_block s v` starts with `v`. -/
theorem die_block_shape (s v : Nat) (x : Die) (hx : x ∈ die_block s v) :
    ∃ t, x = v :: t := by
  unfold die_block at hx
  by_cases hs : s = 0
  · rw [if_pos hs] at hx
    simp only [List.mem_singleton] at hx
    exact ⟨[], hx⟩
  · rw [if_neg hs] at hx
    rcases List.mem_map.mp hx with ⟨t, _, rfl⟩
    exact ⟨t, rfl⟩

/-- Shape of every generated die: correct length, non-increasing faces,
faces bounded by `max_value`, and a head bounded below by `min_value`. -/
theorem die_generator_shape (s : Nat) : ∀ m M : Nat, ∀ d : Die,
    d ∈ die_generator m M (s + 1) →
      d.length = s + 1 ∧ d.Chain' (fun a b => b ≤ a) ∧ (∀ x ∈ d, x ≤ M) ∧
        ∃ v t, d = v :: t ∧ m ≤ v := by
  induction s with
  | zero =>
    intro m M d hd
    rw [die_generator_succ] at hd
    rcases List.mem_flatMap.mp hd with ⟨v, hv, hdv⟩
    rcases die_block_shape 0 v d hdv with ⟨t, rfl⟩
    have ht : t = [] := by
      simp [die_block] at hdv
      exact hdv
    subst ht
    rcases List.mem_range'_1.mp hv with ⟨h1, h2⟩
    refine ⟨rfl, by simp, ?_, v, [], rfl, h1⟩
    intro x hx
    simp only [List.mem_singleton] at hx
    subst hx
    omega
  | succ s ih =>
    intro m M d hd
    rw [die_generator_succ] at hd
    rcases List.mem_flatMap.mp hd with ⟨v, hv, hdv⟩
    simp only [die_block, Nat.succ_ne_zero, if_false] at hdv
    rcases List.mem_map.mp hdv with ⟨t, ht, rfl⟩
    rcases ih 0 v t ht with ⟨hlen, hchain, hle, w, t', htt, _⟩
    rcases List.mem_range'_1.mp hv with ⟨h1, h2⟩
    have hvM : v ≤ M := by omega
    refine ⟨by simp [hlen], ?_, ?_, v, t, rfl, h1⟩
    · rw [List.chain'_cons']
      refine ⟨?_, hchain⟩
      intro y hy
      exact hle y (List.mem_of_mem_head? hy)
    · intro x hx
      rcases List.mem_cons.mp hx with rfl | hx'
      · exact hvM
      · exact le_trans (hle x hx') hvM

/-- The generated sequence is strictly increasing in lexicographic order
(for every configuration, including `min_value > 0`). -/
theorem die_generator_pairwise_lex (s : Nat) : ∀ m M : Nat,
    (die_generator m M s).Pairwise (List.Lex (· < ·)) := by
  induction s with
  | zero => intro m M; exact List.Pairwise.nil
  | succ s ih =>
    intro m M
    rw [die_generator_succ, List.pairwise_flatMap]
    constructor
    · intro v _
      by_cases hs : s = 0
      · subst hs
        simp [die_block]
      · simp only [die_block, if_neg hs]
        rw [List.pairwise_map]
        exact (ih 0 v).imp (fun h => List.Lex.cons h)
    · refine (List.pairwise_lt_range' m (M + 1 - m)).imp ?_
      intro v1 v2 h x hx y hy
      rcases die_block_shape s v1 x hx with ⟨t1, rfl⟩
      rcases die_block_shape s v2 y hy with ⟨t2, rfl⟩
      exact List.Lex.rel h

theorem lex_lt_irrefl : ∀ l : List Nat, ¬ List.Lex (· < ·) l l := by
  intro l
  induction l with
  | nil => intro h; cases h
  | cons a l ih =>
    intro h
    cases h with
    | cons h' => exact ih h'
    | rel h' => exact absurd h' (lt_irrefl a)

/-- No die is generated twice (again for every configuration). -/
theorem die_generator_nodup (m M s : Nat) : (die_generator m M s).Nodup := by
  apply List.Pairwise.imp ?_ (die_generator_pairwise_lex s m M)
  intro a b h heq
  exact lex_lt_irrefl b (heq ▸ h)

/-- C1 (amended to the `min_value = 0` configurations, which include the
program's own): for `max_value ≥ 0` and `sides ≥ 1`, `die_generator`
produces exactly `C(max_value - min_value + sides, sides)` dice, no die
twice, and each die is a non-increasing tuple of length `sides` with every
face in `[min_value, max_value]`.  (For `min_value > 0` the count and the
lower range bound fail, because the recursion resets the minimum to `0`;
see the counterexample.) -/
theorem die_generator_correct (M s : Nat) (hs : 1 ≤ s) :
    (die_generator MIN_VALUE M s).length = Nat.choose (M - MIN_VALUE + s) s ∧
    (die_generator MIN_VALUE M s).Nodup ∧
    ∀ d ∈ die_generator MIN_VALUE M s,
      d.length = s ∧ d.Pairwise (fun a b => b ≤ a) ∧
        ∀ x ∈ d, MIN_VALUE ≤ x ∧ x ≤ M := by
  obtain ⟨s', rfl⟩ : ∃ s', s = s' + 1 := ⟨s - 1, by omega⟩
  refine ⟨?_, die_generator_nodup MIN_VALUE M (s' + 1), ?_⟩
  · show (die_generator 0 M (s' + 1)).length = Nat.choose (M - 0 + (s' + 1)) (s' + 1)
    rw [length_die_generator s' M]
    rw [show M - 0 + (s' + 1) = M + (s' + 1) from by omega]
  · intro d hd
    rcases die_generator_shape s' MIN_VALUE M d hd with ⟨hlen, hchain, hle, _⟩
    refine ⟨hlen, ?_, fun x hx => ⟨Nat.zero_le x, hle x hx⟩⟩
    haveI : IsTrans Nat (fun a b : Nat => b ≤ a) :=
      ⟨fun _ _ _ h1 h2 => le_trans h2 h1⟩
    exact List.chain'_iff_pairwise.mp hchain

/-- Witness for `die_generator_correct` at `max_value = 1`, `sides = 2`. -/
theorem die_generator_correct_witness :
    1 ≤ 2 ∧
      ((die_generator MIN_VALUE 1 2).length = Nat.choose (1 - MIN_VALUE + 2) 2 ∧
      (die_generator MIN_VALUE 1 2).Nodup ∧
      ∀ d ∈ die_generator MIN_VALUE 1 2,
        d.length = 2 ∧ d.Pairwise (fun a b => b ≤ a) ∧
          ∀ x ∈ d, MIN_VALUE ≤ x ∧ x ≤ 1) :=
  ⟨by decide, die_generator_correct 1 2 (by decide)⟩

/-- C1 as stated fails for `min_value > 0`: with `min_value = 1`,
`max_value = 2`, `sides = 2` the generator yields 5 dice, not
`C(2 - 1 + 2, 2) = 3`, and the die `(1, 0)` contains the face `0`, outside
`[min_value, max_value]` (the recursion resets the lower bound to `0`). -/
theorem die_generator_claim_cex :
    (die_generator 1 2 2).length ≠ Nat.choose (2 - 1 + 2) 2 ∧
    ¬(∀ d ∈ die_generator 1 2 2, ∀ x ∈ d, 1 ≤ x ∧ x ≤ 2) := by decide

/-- C2 (amended): the generator's order is ascending-value-first,
depth-first — the output is strictly increasing in lexicographic order, so
a die whose first face is smaller is yielded before any die whose first
face is greater, and recursively so for the remaining faces. -/
theorem die_generator_order (m M s : Nat) :
    (die_generator m M s).Pairwise (List.Lex (· < ·)) :=
  die_generator_pairwise_lex s m M

/-- C2 as stated (descending-value-first: a die with a greater first face
is yielded before any die with a smaller first face) fails already for
`min_value = 0`, `max_value = 1`, `sides = 2`: the output is
`[(0,0), (1,0), (1,1)]`, whose first faces increase. -/
theorem die_generator_order_cex :
    ¬ (die_generator 0 1 2).Pairwise
        (fun d1 d2 : Die => ¬ d1.headI < d2.headI) := by decide

/-! ### Lookup equations for the graph builder -/

theorem getWins_not_mem_keys (g : Graph) (d : Die) (h : d ∉ keys g) :
    getWins g d = [] := by
  induction g with
  | nil => rfl
  | cons e g ih =>
    simp only [keys, List.map_cons, List.mem_cons, not_or] at h
    show (if e.1 = d then e.2.1 else getWins g d) = []
    rw [if_neg (fun he => h.1 he.symm)]
    exact ih (by simpa [keys] using h.2)

theorem getLoses_not_mem_keys (g : Graph) (d : Die) (h : d ∉ keys g) :
    getLoses g d = [] := by
  induction g with
  | nil => rfl
  | cons e g ih =>
    simp only [keys, List.map_cons, List.mem_cons, not_or] at h
    show (if e.1 = d then e.2.2 else getLoses g d) = []
    rw [if_neg (fun he => h.1 he.symm)]
    exact ih (by simpa [keys] using h.2)

theorem getWins_append (g g2 : Graph) (A : Die) :
    getWins (g ++ g2) A = if A ∈ keys g then getWins g A else getWins g2 A := by
  induction g with
  | nil => simp [keys]
  | cons e g ih =>
    show (if e.1 = A then e.2.1 else getWins (g ++ g2) A) = _
    by_cases he : e.1 = A
    · have hA : A ∈ keys (e :: g) := by
        simp only [keys, List.map_cons, List.mem_cons]
        exact Or.inl he.symm
      rw [if_pos he, if_pos hA]
      show e.2.1 = if e.1 = A then e.2.1 else getWins g A
      rw [if_pos he]
    · rw [if_neg he, ih]
      by_cases hA : A ∈ keys g
      · have hA2 : A ∈ keys (e :: g) := by
          simp only [keys, List.map_cons, List.mem_cons]
          exact Or.inr hA
        rw [if_pos hA, if_pos hA2]
        show getWins g A = if e.1 = A then e.2.1 else getWins g A
        rw [if_neg he]
      · have hA2 : A ∉ keys (e :: g) := by
          simp only [keys, List.map_cons, List.mem_cons, not_or]
          exact ⟨fun hh => he hh.symm, by simpa [keys] using hA⟩
        rw [if_neg hA, if_neg hA2]

theorem getLoses_append (g g2 : Graph) (A : Die) :
    getLoses (g ++ g2) A = if A ∈ keys g then getLoses g A else getLoses g2 A := by
  induction g with
  | nil => simp [keys]
  | cons e g ih =>
    show (if e.1 = A then e.2.2 else getLoses (g ++ g2) A) = _
    by_cases he : e.1 = A
    · have hA : A ∈ keys (e :: g) := by
        simp only [keys, List.map_cons, List.mem_cons]
        exact Or.inl he.symm
      rw [if_pos he, if_pos hA]
      show e.2.2 = if e.1 = A then e.2.2 else getLoses g A
      rw [if_pos he]
    · rw [if_neg he, ih]
      by_cases hA : A ∈ keys g
      · have hA2 : A ∈ keys (e :: g) := by
          simp only [keys, List.map_cons, List.mem_cons]
          exact Or.inr hA
        rw [if_pos hA, if_pos hA2]
        show getLoses g A = if e.1 = A then e.2.2 else getLoses g A
        rw [if_neg he]
      · have hA2 : A ∉ keys (e :: g) := by
          simp only [keys, List.map_cons, List.mem_cons, not_or]
          exact ⟨fun hh => he hh.symm, by simpa [keys] using hA⟩
        rw [if_neg hA, if_neg hA2]

theorem getWins_map_updWin_ne (g : Graph) (key val A : Die) (h : A ≠ key) :
    getWins (g.map (fun e =>
        if e.1 = key then (e.1, (e.2.1 ++ [val], e.2.2)) else e)) A
      = getWins g A := by
  induction g with
  | nil => rfl
  | cons e g ih =>
    simp only [List.map_cons]
    by_cases he : e.1 = key
    · rw [if_pos he]
      have hne : e.1 ≠ A := fun hh => h (by rw [← hh, he])
      show (if e.1 = A then e.2.1 ++ [val] else _)
          = if e.1 = A then e.2.1 else _
      rw [if_neg hne, if_neg hne]
      exact ih
    · rw [if_neg he]
      show (if e.1 = A then e.2.1 else _) = if e.1 = A then e.2.1 else _
      by_cases hA : e.1 = A
      · rw [if_pos hA, if_pos hA]
      · rw [if_neg hA, if_neg hA]
        exact ih

theorem getWins_map_updWin_mem (g : Graph) (key val : Die) (h : key ∈ keys g) :
    getWins (g.map (fun e =>
        if e.1 = key then (e.1, (e.2.1 ++ [val], e.2.2)) else e)) key
      = getWins g key ++ [val] := by
  induction g with
  | nil => simp [keys] at h
  | cons e g ih =>
    simp only [List.map_cons]
    by_cases he : e.1 = key
    · rw [if_pos he]
      show (if e.1 = key then e.2.1 ++ [val] else _)
          = (if e.1 = key then e.2.1 else _) ++ [val]
      rw [if_pos he, if_pos he]
    · rw [if_neg he]
      show (if e.1 = key then e.2.1 else _)
          = (if e.1 = key then e.2.1 else _) ++ [val]
      rw [if_neg he, if_neg he]
      apply ih
      simp only [keys, List.map_cons, List.mem_cons] at h
      rcases h with hh | hh
      · exact absurd hh.symm he
      · exact hh

theorem getWins_appendWin (g : Graph) (key val A : Die) :
    getWins (appendWin g key val) A
      = getWins g A ++ (if A = key then [val] else []) := by
  unfold appendWin
  by_cases hmem : key ∈ keys g
  · rw [if_pos hmem]
    by_cases hA : A = key
    · rw [hA, getWins_map_updWin_mem g key val hmem, if_pos rfl]
    · rw [getWins_map_updWin_ne g key val A hA, if_neg hA, List.append_nil]
  · rw [if_neg hmem, getWins_append]
    by_cases hA : A ∈ keys g
    · have hAk : A ≠ key := fun hh => hmem (hh ▸ hA)
      rw [if_pos hA, if_neg hAk, List.append_nil]
    · rw [if_neg hA, getWins_not_mem_keys g A hA, List.nil_append]
      show (if key = A then [val] else []) = if A = key then [val] else []
      by_cases hk : key = A
      · rw [if_pos hk, if_pos hk.symm]
      · rw [if_neg hk, if_neg (fun hh => hk hh.symm)]

theorem getLoses_map_updWin (g : Graph) (key val B : Die) :
    getLoses (g.map (fun e =>
        if e.1 = key then (e.1, (e.2.1 ++ [val], e.2.2)) else e)) B
      = getLoses g B := by
  induction g with
  | nil => rfl
  | cons e g ih =>
    simp only [List.map_cons]
    by_cases he : e.1 = key
    · rw [if_pos he]
      show (if e.1 = B then e.2.2 else _) = if e.1 = B then e.2.2 else _
      by_cases hB : e.1 = B
      · rw [if_pos hB, if_pos hB]
      · rw [if_neg hB, if_neg hB]
        exact ih
    · rw [if_neg he]
      show (if e.1 = B then e.2.2 else _) = if e.1 = B then e.2.2 else _
      by_cases hB : e.1 = B
      · rw [if_pos hB, if_pos hB]
      · rw [if_neg hB, if_neg hB]
        exact ih

theorem getLoses_appendWin (g : Graph) (key val B : Die) :
    getLoses (appendWin g key val) B = getLoses g B := by
  unfold appendWin
  by_cases hmem : key ∈ keys g
  · rw [if_pos hmem, getLoses_map_updWin]
  · rw [if_neg hmem, getLoses_append]
    by_cases hB : B ∈ keys g
    · rw [if_pos hB]
    · rw [if_neg hB, getLoses_not_mem_keys g B hB]
      show (if key = B then [] else []) = []
      by_cases hk : key = B
      · rw [if_pos hk]
      · rw [if_neg hk]

theorem getWins_map_updLose (g : Graph) (key val A : Die) :
    getWins (g.map (fun e =>
        if e.1 = key then (e.1, (e.2.1, e.2.2 ++ [val])) else e)) A
      = getWins g A := by
  induction g with
  | nil => rfl
  | cons e g ih =>
    simp only [List.map_cons]
    by_cases he : e.1 = key
    · rw [if_pos he]
      show (if e.1 = A then e.2.1 else _) = if e.1 = A then e.2.1 else _
      by_cases hA : e.1 = A
      · rw [if_pos hA, if_pos hA]
      · rw [if_neg hA, if_neg hA]
        exact ih
    · rw [if_neg he]
      show (if e.1 = A then e.2.1 else _) = if e.1 = A then e.2.1 else _
      by_cases hA : e.1 = A
      · rw [if_pos hA, if_pos hA]
      · rw [if_neg hA, if_neg hA]
        exact ih

theorem getWins_appendLose (g : Graph) (key val A : Die) :
    getWins (appendLose g key val) A = getWins g A := by
  unfold appendLose
  by_cases hmem : key ∈ keys g
  · rw [if_pos hmem, getWins_map_updLose]
  · rw [if_neg hmem, getWins_append]
    by_cases hA : A ∈ keys g
    · rw [if_pos hA]
    · rw [if_neg hA, getWins_not_mem_keys g A hA]
      show (if key = A then [] else []) = []
      by_cases hk : key = A
      · rw [if_pos hk]
      · rw [if_neg hk]

theorem getLoses_map_updLose_ne (g : Graph) (key val B : Die) (h : B ≠ key) :
    getLoses (g.map (fun e =>
        if e.1 = key then (e.1, (e.2.1, e.2.2 ++ [val])) else e)) B
      = getLoses g B := by
  induction g with
  | nil => rfl
  | cons e g ih =>
    simp only [List.map_cons]
    by_cases he : e.1 = key
    · rw [if_pos he]
      have hne : e.1 ≠ B := fun hh => h (by rw [← hh, he])
      show (if e.1 = B then e.2.2 ++ [val] else _)
          = if e.1 = B then e.2.2 else _
      rw [if_neg hne, if_neg hne]
      exact ih
    · rw [if_neg he]
      show (if e.1 = B then e.2.2 else _) = if e.1 = B then e.2.2 else _
      by_cases hB : e.1 = B
      · rw [if_pos hB, if_pos hB]
      · rw [if_neg hB, if_neg hB]
        exact ih

theorem getLoses_map_updLose_mem (g : Graph) (key val : Die) (h : key ∈ keys g) :
    getLoses (g.map (fun e =>
        if e.1 = key then (e.1, (e.2.1, e.2.2 ++ [val])) else e)) key
      = getLoses g key ++ [val] := by
  induction g with
  | nil => simp [keys] at h
  | cons e g ih =>
    simp only [List.map_cons]
    by_cases he : e.1 = key
    · rw [if_pos he]
      show (if e.1 = key then e.2.2 ++ [val] else _)
          = (if e.1 = key then e.2.2 else _) ++ [val]
      rw [if_pos he, if_pos he]
    · rw [if_neg he]
      show (if e.1 = key then e.2.2 else _)
          = (if e.1 = key then e.2.2 else _) ++ [val]
      rw [if_neg he, if_neg he]
      apply ih
      simp only [keys, List.map_cons, List.mem_cons] at h
      rcases h with hh | hh
      · exact absurd hh.symm he
      · exact hh

theorem getLoses_appendLose (g : Graph) (key val B : Die) :
    getLoses (appendLose g key val) B
      = getLoses g B ++ (if B = key then [val] else []) := by
  unfold appendLose
  by_cases hmem : key ∈ keys g
  · rw [if_pos hmem]
    by_cases hB : B = key
    · rw [hB, getLoses_map_updLose_mem g key val hmem, if_pos rfl]
    · rw [getLoses_map_updLose_ne g key val B hB, if_neg hB, List.append_nil]
  · rw [if_neg hmem, getLoses_append]
    by_cases hB : B ∈ keys g
    · have hBk : B ≠ key := fun hh => hmem (hh ▸ hB)
      rw [if_pos hB, if_neg hBk, List.append_nil]
    · rw [if_neg hB, getLoses_not_mem_keys g B hB, List.nil_append]
      show (if key = B then [val] else []) = if B = key then [val] else []
      by_cases hk : key = B
      · rw [if_pos hk, if_pos hk.symm]
      · rw [if_neg hk, if_neg (fun hh => hk hh.symm)]

/-- Effect of one cross-product iteration on a win list. -/
theorem getWins_build_step (t : Die) (g : Graph) (o A : Die) :
    getWins (build_step t g o) A
      = getWins g A
          ++ (if A = t ∧ is_best t o = true then [o] else []) := by
  unfold build_step
  by_cases hb : is_best t o = true
  · rw [if_pos hb, getWins_appendLose, getWins_appendWin]
    by_cases hA : A = t
    · rw [if_pos hA, if_pos ⟨hA, hb⟩]
    · rw [if_neg hA, if_neg (fun hh => hA hh.1)]
  · rw [if_neg hb, if_neg (fun hh => hb hh.2), List.append_nil]

/-- Effect of one cross-product iteration on a lose list. -/
theorem getLoses_build_step (t : Die) (g : Graph) (o B : Die) :
    getLoses (build_step t g o) B
      = getLoses g B
          ++ (if B = o ∧ is_best t o = true then [t] else []) := by
  unfold build_step
  by_cases hb : is_best t o = true
  · rw [if_pos hb, getLoses_appendLose, getLoses_appendWin]
    by_cases hB : B = o
    · rw [if_pos hB, if_pos ⟨hB, hb⟩]
    · rw [if_neg hB, if_neg (fun hh => hB hh.1)]
  · rw [if_neg hb, if_neg (fun hh => hb hh.2), List.append_nil]

/-- Win lists after the inner loop: the current outer die accumulates the
opponents it beats, in opponent order; every other win list is untouched. -/
theorem getWins_foldl_inner (t : Die) : ∀ (opps : List Die) (g : Graph) (A : Die),
    getWins (opps.foldl (build_step t) g) A
      = getWins g A
          ++ (if A = t then opps.filter (fun o => is_best t o) else []) := by
  intro opps
  induction opps with
  | nil =>
    intro g A
    by_cases hA : A = t <;> simp [hA]
  | cons o opps ih =>
    intro g A
    rw [List.foldl_cons, ih, getWins_build_step, List.filter_cons]
    by_cases hA : A = t
    · rw [if_pos hA, if_pos hA]
      by_cases hb : is_best t o = true
      · rw [if_pos ⟨hA, hb⟩, if_pos hb, List.append_assoc]
        rfl
      · rw [if_neg (fun hh => hb hh.2), List.append_nil]
        have : (is_best t o = true) = False := eq_false hb
        simp only [this, if_false]
    · rw [if_neg hA, if_neg hA, if_neg (fun hh => hA hh.1), List.append_nil,
        List.append_nil]

/-- Lose lists after the inner loop: a die `B` accumulates one copy of the
current outer die `t` for each occurrence of `B` among the beaten
opponents. -/
theorem getLoses_foldl_inner (t : Die) : ∀ (opps : List Die) (g : Graph) (B : Die),
    getLoses (opps.foldl (build_step t) g) B
      = getLoses g B
          ++ (opps.filter (fun o => decide (o = B) && is_best t o)).map
              (fun _ => t) := by
  intro opps
  induction opps with
  | nil => intro g B; simp
  | cons o opps ih =>
    intro g B
    rw [List.foldl_cons, ih, getLoses_build_step, List.filter_cons]
    by_cases h1 : o = B
    · by_cases hb : is_best t o = true
      · have hc : (decide (o = B) && is_best t o) = true := by
          rw [decide_eq_true h1, hb]
          rfl
        rw [if_pos hc, if_pos ⟨h1.symm, hb⟩, List.map_cons, List.append_assoc]
        rfl
      · have hc : ¬((decide (o = B) && is_best t o) = true) := by simp [hb]
        rw [if_neg hc, if_neg (fun hh => hb hh.2), List.append_nil]
    · have hc : ¬((decide (o = B) && is_best t o) = true) := by simp [h1]
      rw [if_neg hc, if_neg (fun hh => h1 hh.1.symm), List.append_nil]

/-- Win lists after a sequence of full inner loops. -/
theorem getWins_foldl_outer (opps : List Die) : ∀ (ts : List Die) (g : Graph)
    (A : Die),
    getWins (ts.foldl (fun g t => opps.foldl (build_step t) g) g) A
      = getWins g A
          ++ ts.flatMap
              (fun t => if A = t then opps.filter (fun o => is_best t o)
                else []) := by
  intro ts
  induction ts with
  | nil => intro g A; simp
  | cons t ts ih =>
    intro g A
    rw [List.foldl_cons, ih, getWins_foldl_inner, List.flatMap_cons,
      List.append_assoc]

/-- Lose lists after a sequence of full inner loops. -/
theorem getLoses_foldl_outer (opps : List Die) : ∀ (ts : List Die) (g : Graph)
    (B : Die),
    getLoses (ts.foldl (fun g t => opps.foldl (build_step t) g) g) B
      = getLoses g B
          ++ ts.flatMap
              (fun t => (opps.filter (fun o => decide (o = B) && is_best t o)).map
                (fun _ => t)) := by
  intro ts
  induction ts with
  | nil => intro g B; simp
  | cons t ts ih =>
    intro g B
    rw [List.foldl_cons, ih, getLoses_foldl_inner, List.flatMap_cons,
      List.append_assoc]

theorem flatMap_ite_single {β : Type} (f : Die → List β) :
    ∀ (ts : List Die), ts.Nodup → ∀ A : Die,
      (ts.flatMap (fun t => if A = t then f t else []))
        = if A ∈ ts then f A else [] := by
  intro ts
  induction ts with
  | nil => intro _ A; simp
  | cons t ts ih =>
    intro hnd A
    rcases List.nodup_cons.mp hnd with ⟨ht, hnd'⟩
    rw [List.flatMap_cons]
    by_cases hA : A = t
    · rw [if_pos hA, ih hnd' A, if_neg (hA ▸ ht),
        if_pos (List.mem_cons.mpr (Or.inl hA)), List.append_nil]
      exact congrArg f hA.symm
    · rw [if_neg hA, List.nil_append, ih hnd' A]
      by_cases hm : A ∈ ts
      · rw [if_pos hm, if_pos (List.mem_cons.mpr (Or.inr hm))]
      · rw [if_neg hm, if_neg (by
          intro hh
          rcases List.mem_cons.mp hh with hh | hh
          · exact hA hh
          · exact hm hh)]

theorem filter_eq_key_single (p : Die → Bool) :
    ∀ (opps : List Die), opps.Nodup → ∀ B : Die,
      opps.filter (fun o => decide (o = B) && p o)
        = if B ∈ opps ∧ p B = true then [B] else [] := by
  intro opps
  induction opps with
  | nil => intro _ B; simp
  | cons o opps ih =>
    intro hnd B
    rcases List.nodup_cons.mp hnd with ⟨ho, hnd'⟩
    rw [List.filter_cons]
    by_cases h1 : o = B
    · by_cases hp : p o = true
      · have hc : (decide (o = B) && p o) = true := by
          rw [decide_eq_true h1, hp]
          rfl
        rw [if_pos hc, ih hnd' B, if_neg (by
            rintro ⟨hm, _⟩
            exact ho (h1 ▸ hm)),
          if_pos ⟨List.mem_cons.mpr (Or.inl h1.symm), h1 ▸ hp⟩, h1]
      · have hc : ¬((decide (o = B) && p o) = true) := by simp [hp]
        rw [if_neg hc, ih hnd' B]
        by_cases hm : B ∈ opps
        · exact absurd (h1 ▸ hm) ho
        · rw [if_neg (by rintro ⟨hm', _⟩; exact hm hm'), if_neg (by
            rintro ⟨_, hp'⟩
            exact hp (h1 ▸ hp'))]
    · have hc : ¬((decide (o = B) && p o) = true) := by simp [h1]
      rw [if_neg hc, ih hnd' B]
      by_cases hm : B ∈ opps ∧ p B = true
      · rw [if_pos hm, if_pos ⟨List.mem_cons.mpr (Or.inr hm.1), hm.2⟩]
      · rw [if_neg hm, if_neg (by
          rintro ⟨hm', hp'⟩
          rcases List.mem_cons.mp hm' with hh | hh
          · exact h1 hh.symm
          · exact hm ⟨hh, hp'⟩)]

theorem flatMap_ite_mem_filter (q : Die → Bool) :
    ∀ ts : List Die,
      (ts.flatMap (fun t => if q t = true then [t] else [])) = ts.filter q := by
  intro ts
  induction ts with
  | nil => rfl
  | cons t ts ih =>
    rw [List.flatMap_cons, List.filter_cons, ih]
    by_cases hq : q t = true
    · rw [if_pos hq, if_pos hq]
      rfl
    · rw [if_neg hq, if_neg hq, List.nil_append]

/-- Closed form of the win lists of the finished graph: when the die list
has no duplicates, die `A`'s win list is exactly the dice it beats, in
generation order (and dice outside the list have no entry). -/
theorem getWins_build_graph (dice : List Die) (hnd : dice.Nodup) (A : Die) :
    getWins (build_graph dice) A
      = if A ∈ dice then dice.filter (fun o => is_best A o) else [] := by
  unfold build_graph
  rw [getWins_foldl_outer, flatMap_ite_single _ dice hnd A]
  rfl

/-- Collapse of the lose-list contribution of a sequence of inner loops
over a duplicate-free opponent list. -/
theorem flatMap_filter_key (dice : List Die) (hnd : dice.Nodup)
    (ts : List Die) (B : Die) :
    ts.flatMap
        (fun t => (dice.filter (fun o => decide (o = B) && is_best t o)).map
          (fun _ => t))
      = if B ∈ dice then ts.filter (fun t => is_best t B) else [] := by
  have hcongr : ts.flatMap
        (fun t => (dice.filter (fun o => decide (o = B) && is_best t o)).map
          (fun _ => t))
      = ts.flatMap
        (fun t => if B ∈ dice ∧ is_best t B = true then [t] else []) := by
    apply List.flatMap_congr
    intro t _
    rw [filter_eq_key_single _ dice hnd B]
    by_cases hc : B ∈ dice ∧ is_best t B = true
    · rw [if_pos hc, if_pos hc]
      rfl
    · rw [if_neg hc, if_neg hc]
      rfl
  rw [hcongr]
  by_cases hm : B ∈ dice
  · rw [if_pos hm]
    have : ts.flatMap (fun t => if B ∈ dice ∧ is_best t B = true then [t] else [])
        = ts.flatMap (fun t => if is_best t B = true then [t] else []) := by
      apply List.flatMap_congr
      intro t _
      by_cases hb : is_best t B = true
      · rw [if_pos ⟨hm, hb⟩, if_pos hb]
      · rw [if_neg (fun hh => hb hh.2), if_neg hb]
    rw [this, flatMap_ite_mem_filter]
  · rw [if_neg hm]
    have : ts.flatMap (fun t => if B ∈ dice ∧ is_best t B = true then [t] else [])
        = ts.flatMap (fun _ => ([] : List Die)) := by
      apply List.flatMap_congr
      intro t _
      rw [if_neg (fun hh => hm hh.1)]
    rw [this]
    simp

/-- Closed form of the lose lists of the finished graph. -/
theorem getLoses_build_graph (dice : List Die) (hnd : dice.Nodup) (B : Die) :
    getLoses (build_graph dice) B
      = if B ∈ dice then dice.filter (fun t => is_best t B) else [] := by
  unfold build_graph
  rw [getLoses_foldl_outer, show getLoses [] B = [] from rfl, List.nil_append,
    flatMap_filter_key dice hnd dice B]

/-- C5: the comparator is irreflexive — `is_best(A, A)` is always false —
and consequently during graph construction no die is ever recorded as
beating itself, whatever the die list. -/
theorem is_best_irrefl :
    (∀ A : Die, is_best A A = false) ∧
    ∀ (dice : List Die) (A : Die), A ∉ getWins (build_graph dice) A := by
  have h1 : ∀ A : Die, is_best A A = false := by
    intro A
    rw [Bool.eq_false_iff]
    intro htrue
    rw [is_best_char] at htrue
    have e1 := winSum_tri A A
    have e2 := revSum_eq_winSum_swap A A
    omega
  refine ⟨h1, ?_⟩
  intro dice A hmem
  unfold build_graph at hmem
  rw [getWins_foldl_outer,
    show getWins [] A = [] from rfl, List.nil_append] at hmem
  rcases List.mem_flatMap.mp hmem with ⟨t, _, hA⟩
  by_cases hAt : A = t
  · rw [if_pos hAt] at hA
    rcases List.mem_filter.mp hA with ⟨_, hbest⟩
    rw [← hAt, h1 A] at hbest
    exact Bool.false_ne_true hbest
  · rw [if_neg hAt] at hA
    exact (List.not_mem_nil A) hA

/-! ### The cleaning pass, in terms of lookups -/

theorem removeAll_cons (d : Die) (td l : List Die) :
    removeAll (d :: td) l
      = removeAll td (if d ∈ l then l.erase d else l) := rfl

theorem removeAll_nil (td : List Die) : removeAll td [] = [] := by
  induction td with
  | nil => rfl
  | cons d td ih =>
    rw [removeAll_cons, if_neg (List.not_mem_nil d)]
    exact ih

theorem removeAll_nodup (td : List Die) : ∀ l : List Die, l.Nodup →
    (removeAll td l).Nodup := by
  induction td with
  | nil => intro l h; exact h
  | cons d td ih =>
    intro l h
    rw [removeAll_cons]
    apply ih
    by_cases hd : d ∈ l
    · rw [if_pos hd]
      exact h.erase d
    · rw [if_neg hd]
      exact h

theorem mem_removeAll (x : Die) (td : List Die) : ∀ l : List Die, l.Nodup →
    (x ∈ removeAll td l ↔ x ∈ l ∧ x ∉ td) := by
  induction td with
  | nil => intro l _; simp [removeAll]
  | cons d td ih =>
    intro l h
    rw [removeAll_cons]
    have hstep : (if d ∈ l then l.erase d else l).Nodup := by
      by_cases hd : d ∈ l
      · rw [if_pos hd]
        exact h.erase d
      · rw [if_neg hd]
        exact h
    rw [ih _ hstep]
    by_cases hd : d ∈ l
    · rw [if_pos hd, List.Nodup.mem_erase_iff h]
      constructor
      · rintro ⟨⟨hxd, hxl⟩, hxtd⟩
        refine ⟨hxl, ?_⟩
        intro hc
        rcases List.mem_cons.mp hc with hc | hc
        · exact hxd hc
        · exact hxtd hc
      · rintro ⟨hxl, hxdtd⟩
        refine ⟨⟨?_, hxl⟩, ?_⟩
        · intro hc
          exact hxdtd (List.mem_cons.mpr (Or.inl hc))
        · intro hc
          exact hxdtd (List.mem_cons.mpr (Or.inr hc))
    · rw [if_neg hd]
      constructor
      · rintro ⟨hxl, hxtd⟩
        refine ⟨hxl, ?_⟩
        intro hc
        rcases List.mem_cons.mp hc with hc | hc
        · exact hd (hc ▸ hxl)
        · exact hxtd hc
      · rintro ⟨hxl, hxdtd⟩
        exact ⟨hxl, fun hc => hxdtd (List.mem_cons.mpr (Or.inr hc))⟩

theorem clean_pass_eq (g : Graph) :
    clean_pass g = (g.filter (fun e => decide (e.1 ∉ to_delete g))).map
      (fun e => (e.1,
        (removeAll (to_delete g) e.2.1, removeAll (to_delete g) e.2.2))) := rfl

theorem getWins_pass_not_td (td : List Die) : ∀ (g : Graph) (A : Die), A ∉ td →
    getWins ((g.filter (fun e => decide (e.1 ∉ td))).map
        (fun e => (e.1, (removeAll td e.2.1, removeAll td e.2.2)))) A
      = removeAll td (getWins g A) := by
  intro g
  induction g with
  | nil =>
    intro A _
    rw [show getWins ([] : Graph) A = [] from rfl, removeAll_nil]
    rfl
  | cons e g ih =>
    intro A hA
    rw [List.filter_cons]
    by_cases he : e.1 ∈ td
    · have hc : ¬(decide (e.1 ∉ td) = true) := by simp [he]
      rw [if_neg hc, ih A hA]
      have hne : e.1 ≠ A := fun hh => hA (hh ▸ he)
      show removeAll td (getWins g A)
          = removeAll td (if e.1 = A then e.2.1 else getWins g A)
      rw [if_neg hne]
    · have hc : (decide (e.1 ∉ td)) = true := by simp [he]
      rw [if_pos hc, List.map_cons]
      show (if e.1 = A then removeAll td e.2.1 else _)
          = removeAll td (if e.1 = A then e.2.1 else getWins g A)
      by_cases hAe : e.1 = A
      · rw [if_pos hAe, if_pos hAe]
      · rw [if_neg hAe, if_neg hAe]
        exact ih A hA

theorem getWins_pass_td (td : List Die) : ∀ (g : Graph) (A : Die), A ∈ td →
    getWins ((g.filter (fun e => decide (e.1 ∉ td))).map
        (fun e => (e.1, (removeAll td e.2.1, removeAll td e.2.2)))) A = [] := by
  intro g
  induction g with
  | nil => intro A _; rfl
  | cons e g ih =>
    intro A hA
    rw [List.filter_cons]
    by_cases he : e.1 ∈ td
    · have hc : ¬(decide (e.1 ∉ td) = true) := by simp [he]
      rw [if_neg hc]
      exact ih A hA
    · have hc : (decide (e.1 ∉ td)) = true := by simp [he]
      rw [if_pos hc, List.map_cons]
      have hne : e.1 ≠ A := fun hh => he (hh ▸ hA)
      show (if e.1 = A then _ else _) = _
      rw [if_neg hne]
      exact ih A hA

theorem getLoses_pass_not_td (td : List Die) : ∀ (g : Graph) (B : Die), B ∉ td →
    getLoses ((g.filter (fun e => decide (e.1 ∉ td))).map
        (fun e => (e.1, (removeAll td e.2.1, removeAll td e.2.2)))) B
      = removeAll td (getLoses g B) := by
  intro g
  induction g with
  | nil =>
    intro B _
    rw [show getLoses ([] : Graph) B = [] from rfl, removeAll_nil]
    rfl
  | cons e g ih =>
    intro B hB
    rw [List.filter_cons]
    by_cases he : e.1 ∈ td
    · have hc : ¬(decide (e.1 ∉ td) = true) := by simp [he]
      rw [if_neg hc, ih B hB]
      have hne : e.1 ≠ B := fun hh => hB (hh ▸ he)
      show removeAll td (getLoses g B)
          = removeAll td (if e.1 = B then e.2.2 else getLoses g B)
      rw [if_neg hne]
    · have hc : (decide (e.1 ∉ td)) = true := by simp [he]
      rw [if_pos hc, List.map_cons]
      show (if e.1 = B then removeAll td e.2.2 else _)
          = removeAll td (if e.1 = B then e.2.2 else getLoses g B)
      by_cases hBe : e.1 = B
      · rw [if_pos hBe, if_pos hBe]
      · rw [if_neg hBe, if_neg hBe]
        exact ih B hB

theorem getLoses_pass_td (td : List Die) : ∀ (g : Graph) (B : Die), B ∈ td →
    getLoses ((g.filter (fun e => decide (e.1 ∉ td))).map
        (fun e => (e.1, (removeAll td e.2.1, removeAll td e.2.2)))) B = [] := by
  intro g
  induction g with
  | nil => intro B _; rfl
  | cons e g ih =>
    intro B hB
    rw [List.filter_cons]
    by_cases he : e.1 ∈ td
    · have hc : ¬(decide (e.1 ∉ td) = true) := by simp [he]
      rw [if_neg hc]
      exact ih B hB
    · have hc : (decide (e.1 ∉ td)) = true := by simp [he]
      rw [if_pos hc, List.map_cons]
      have hne : e.1 ≠ B := fun hh => he (hh ▸ hB)
      show (if e.1 = B then _ else _) = _
      rw [if_neg hne]
      exact ih B hB

theorem getWins_nodup (g : Graph)
    (h : ∀ e ∈ g, e.2.1.Nodup ∧ e.2.2.Nodup) (A : Die) :
    (getWins g A).Nodup := by
  induction g with
  | nil => exact List.Pairwise.nil
  | cons e g ih =>
    show (if e.1 = A then e.2.1 else getWins g A).Nodup
    by_cases hA : e.1 = A
    · rw [if_pos hA]
      exact (h e (List.mem_cons_self e g)).1
    · rw [if_neg hA]
      exact ih (fun e' he' => h e' (List.mem_cons_of_mem e he'))

theorem getLoses_nodup (g : Graph)
    (h : ∀ e ∈ g, e.2.1.Nodup ∧ e.2.2.Nodup) (B : Die) :
    (getLoses g B).Nodup := by
  induction g with
  | nil => exact List.Pairwise.nil
  | cons e g ih =>
    show (if e.1 = B then e.2.2 else getLoses g B).Nodup
    by_cases hB : e.1 = B
    · rw [if_pos hB]
      exact (h e (List.mem_cons_self e g)).2
    · rw [if_neg hB]
      exact ih (fun e' he' => h e' (List.mem_cons_of_mem e he'))

theorem lists_nodup_pass (g : Graph)
    (h : ∀ e ∈ g, e.2.1.Nodup ∧ e.2.2.Nodup) :
    ∀ e ∈ clean_pass g, e.2.1.Nodup ∧ e.2.2.Nodup := by
  intro e' he'
  rw [clean_pass_eq] at he'
  rcases List.mem_map.mp he' with ⟨e, hef, rfl⟩
  rcases List.mem_filter.mp hef with ⟨heg, _⟩
  exact ⟨removeAll_nodup _ _ (h e heg).1, removeAll_nodup _ _ (h e heg).2⟩

theorem symAll_pass (g : Graph)
    (hnd : ∀ e ∈ g, e.2.1.Nodup ∧ e.2.2.Nodup)
    (hsym : ∀ A B : Die, B ∈ getWins g A ↔ A ∈ getLoses g B) :
    ∀ A B : Die,
      B ∈ getWins (clean_pass g) A ↔ A ∈ getLoses (clean_pass g) B := by
  intro A B
  rw [clean_pass_eq]
  by_cases hA : A ∈ to_delete g
  · rw [getWins_pass_td _ _ _ hA]
    by_cases hB : B ∈ to_delete g
    · rw [getLoses_pass_td _ _ _ hB]
      simp
    · rw [getLoses_pass_not_td _ _ _ hB,
        mem_removeAll _ _ _ (getLoses_nodup g hnd B)]
      simp [hA]
  · rw [getWins_pass_not_td _ _ _ hA,
      mem_removeAll _ _ _ (getWins_nodup g hnd A)]
    by_cases hB : B ∈ to_delete g
    · rw [getLoses_pass_td _ _ _ hB]
      simp [hB]
    · rw [getLoses_pass_not_td _ _ _ hB,
        mem_removeAll _ _ _ (getLoses_nodup g hnd B), hsym A B]
      constructor
      · rintro ⟨h1, _⟩
        exact ⟨h1, hA⟩
      · rintro ⟨h1, _⟩
        exact ⟨h1, hB⟩

/-- Fixed-point induction along `clean`'s recursion. -/
theorem clean_induction (P : Graph → Prop)
    (hstep : ∀ g : Graph, P g → P (clean_pass g)) :
    ∀ (n : Nat) (g : Graph), g.length ≤ n → P g → P (clean g) := by
  intro n
  induction n with
  | zero =>
    intro g hlen hP
    have hg : g = [] := List.length_eq_zero.mp (Nat.le_zero.mp hlen)
    rw [clean_of_empty g (by rw [hg]; rfl)]
    exact hP
  | succ n ih =>
    intro g hlen hP
    by_cases h : to_delete g = []
    · rw [clean_of_empty g h]
      exact hP
    · rw [clean_of_nonempty g h]
      exact ih (clean_pass g)
        (by have := clean_pass_length_lt g h; omega) (hstep g hP)

/-- Lemma: `clean` runs until nothing qualifies for deletion. -/
theorem to_delete_clean : ∀ (n : Nat) (g : Graph), g.length ≤ n →
    to_delete (clean g) = [] := by
  intro n
  induction n with
  | zero =>
    intro g hlen
    have hg : g = [] := List.length_eq_zero.mp (Nat.le_zero.mp hlen)
    rw [hg, clean_of_empty [] rfl]
    rfl
  | succ n ih =>
    intro g hlen
    by_cases h : to_delete g = []
    · rw [clean_of_empty g h]
      exact h
    · rw [clean_of_nonempty g h]
      exact ih (clean_pass g) (by have := clean_pass_length_lt g h; omega)

/-- C6: after `clean` returns, every die remaining in the graph has a
non-empty win list and a non-empty lose list. -/
theorem clean_no_trivial (g : Graph) (d : Die) (w l : List Die)
    (h : (d, (w, l)) ∈ clean g) : w ≠ [] ∧ l ≠ [] := by
  have htd := to_delete_clean g.length g (le_refl _)
  unfold to_delete at htd
  rw [List.map_eq_nil_iff, List.filter_eq_nil_iff] at htd
  have hwl := htd _ h
  simp only [Bool.or_eq_true, decide_eq_true_eq, not_or] at hwl
  constructor
  · intro hw
    exact hwl.1 (by rw [hw]; rfl)
  · intro hl
    exact hwl.2 (by rw [hl]; rfl)

/-- Witness for `clean_no_trivial` at a concrete three-cycle graph, which
`clean` leaves untouched. -/
theorem clean_no_trivial_witness :
    (([0], ([[1]], [[2]])) : Die × (List Die × List Die)) ∈
        clean [([0], ([[1]], [[2]])), ([1], ([[2]], [[0]])),
          ([2], ([[0]], [[1]]))] ∧
      ([[1]] : List Die) ≠ [] ∧ ([[2]] : List Die) ≠ [] := by
  have hc : clean [([0], ([[1]], [[2]])), ([1], ([[2]], [[0]])),
      ([2], ([[0]], [[1]]))]
      = [([0], ([[1]], [[2]])), ([1], ([[2]], [[0]])), ([2], ([[0]], [[1]]))] :=
    clean_of_empty _ rfl
  have hmem : (([0], ([[1]], [[2]])) : Die × (List Die × List Die)) ∈
      clean [([0], ([[1]], [[2]])), ([1], ([[2]], [[0]])),
        ([2], ([[0]], [[1]]))] := by
    rw [hc]
    exact List.mem_cons_self _ _
  exact ⟨hmem, clean_no_trivial _ [0] [[1]] [[2]] hmem⟩

/-- C7: the reducer is idempotent — running `clean` on its own output
deletes nothing further and returns the graph unchanged. -/
theorem clean_idempotent (g : Graph) : clean (clean g) = clean g :=
  clean_of_empty (clean g) (to_delete_clean g.length g (le_refl _))

/-- C8: termination structure of `clean` — every pass that deletes
anything strictly decreases the node count, and the loop exits as soon as
a pass identifies nothing to delete (worst case: the empty graph, which it
returns unchanged). -/
theorem clean_terminates (g : Graph) :
    (to_delete g ≠ [] → (clean_pass g).length < g.length) ∧
    (to_delete g = [] → clean g = g) :=
  ⟨clean_pass_length_lt g, clean_of_empty g⟩

/-- Witness for `clean_terminates`: a singleton graph with empty lists is
strictly shrunk by one pass, and the empty graph is a fixed point. -/
theorem clean_terminates_witness :
    (to_delete [(([0] : Die), (([] : List Die), ([] : List Die)))] ≠ [] ∧
      (clean_pass [(([0] : Die), (([] : List Die), ([] : List Die)))]).length
        < [(([0] : Die), (([] : List Die), ([] : List Die)))].length) ∧
    (to_delete ([] : Graph) = [] ∧ clean ([] : Graph) = []) :=
  ⟨⟨by decide,
      (clean_terminates [(([0] : Die), (([] : List Die), ([] : List Die)))]).1
        (by decide)⟩,
    ⟨rfl, (clean_terminates ([] : Graph)).2 rfl⟩⟩

/-! ### Keys of the graph under construction -/

theorem keys_appendWin (g : Graph) (key val : Die) :
    keys (appendWin g key val)
      = if key ∈ keys g then keys g else keys g ++ [key] := by
  unfold appendWin
  by_cases hmem : key ∈ keys g
  · rw [if_pos hmem, if_pos hmem]
    unfold keys
    rw [List.map_map]
    apply List.map_congr_left
    intro e _
    simp only [Function.comp_apply]
    by_cases he : e.1 = key
    · rw [if_pos he]
    · rw [if_neg he]
  · rw [if_neg hmem, if_neg hmem]
    unfold keys
    rw [List.map_append]
    rfl

theorem keys_appendLose (g : Graph) (key val : Die) :
    keys (appendLose g key val)
      = if key ∈ keys g then keys g else keys g ++ [key] := by
  unfold appendLose
  by_cases hmem : key ∈ keys g
  · rw [if_pos hmem, if_pos hmem]
    unfold keys
    rw [List.map_map]
    apply List.map_congr_left
    intro e _
    simp only [Function.comp_apply]
    by_cases he : e.1 = key
    · rw [if_pos he]
    · rw [if_neg he]
  · rw [if_neg hmem, if_neg hmem]
    unfold keys
    rw [List.map_append]
    rfl

theorem keys_nodup_append_one (ks : List Die) (k : Die) (h : ks.Nodup)
    (hk : k ∉ ks) : (ks ++ [k]).Nodup := by
  refine List.nodup_append.mpr ⟨h, List.nodup_singleton k, ?_⟩
  intro a ha hat
  rw [List.mem_singleton] at hat
  exact hk (hat ▸ ha)

theorem keys_nodup_build_step (t : Die) (g : Graph) (o : Die)
    (h : (keys g).Nodup) : (keys (build_step t g o)).Nodup := by
  unfold build_step
  by_cases hb : is_best t o = true
  · rw [if_pos hb]
    have h1 : (keys (appendWin g t o)).Nodup := by
      rw [keys_appendWin]
      by_cases hm : t ∈ keys g
      · rw [if_pos hm]
        exact h
      · rw [if_neg hm]
        exact keys_nodup_append_one _ _ h hm
    rw [keys_appendLose]
    by_cases hm : o ∈ keys (appendWin g t o)
    · rw [if_pos hm]
      exact h1
    · rw [if_neg hm]
      exact keys_nodup_append_one _ _ h1 hm
  · rw [if_neg hb]
    exact h

theorem foldl_preserve {α : Type} (P : Graph → Prop) (f : Graph → α → Graph)
    (hf : ∀ (g : Graph) (x : α), P g → P (f g x)) :
    ∀ (l : List α) (g : Graph), P g → P (l.foldl f g) := by
  intro l
  induction l with
  | nil => intro g h; exact h
  | cons x l ih =>
    intro g h
    rw [List.foldl_cons]
    exact ih (f g x) (hf g x h)

theorem keys_nodup_build_upto (dice done : List Die) (cur : Die)
    (innerDone : List Die) :
    (keys (build_upto dice done cur innerDone)).Nodup := by
  unfold build_upto
  apply foldl_preserve (fun g => (keys g).Nodup) (build_step cur)
    (fun g x hx => keys_nodup_build_step cur g x hx)
  apply foldl_preserve (fun g => (keys g).Nodup)
    (fun g t => dice.foldl (build_step t) g)
    (fun g t hx => foldl_preserve (fun g => (keys g).Nodup) (build_step t)
      (fun g' x hx' => keys_nodup_build_step t g' x hx') dice g hx)
  exact List.Pairwise.nil

theorem keys_nodup_build_graph (dice : List Die) :
    (keys (build_graph dice)).Nodup := by
  unfold build_graph
  apply foldl_preserve (fun g => (keys g).Nodup)
    (fun g t => dice.foldl (build_step t) g)
    (fun g t hx => foldl_preserve (fun g => (keys g).Nodup) (build_step t)
      (fun g' x hx' => keys_nodup_build_step t g' x hx') dice g hx)
  exact List.Pairwise.nil

/-- In a graph with duplicate-free keys (every state of this program), the
stored lists of an entry are what lookup returns for its key. -/
theorem entry_lookup (g : Graph) (h : (keys g).Nodup) :
    ∀ e ∈ g, e.2.1 = getWins g e.1 ∧ e.2.2 = getLoses g e.1 := by
  induction g with
  | nil => intro e he; cases he
  | cons e0 g ih =>
    intro e he
    have h' : (keys g).Nodup ∧ e0.1 ∉ keys g := by
      rw [show keys (e0 :: g) = e0.1 :: keys g from rfl, List.nodup_cons] at h
      exact ⟨h.2, h.1⟩
    rcases List.mem_cons.mp he with rfl | he'
    · constructor
      · show e.2.1 = if e.1 = e.1 then e.2.1 else _
        rw [if_pos rfl]
      · show e.2.2 = if e.1 = e.1 then e.2.2 else _
        rw [if_pos rfl]
    · have hne : e0.1 ≠ e.1 := by
        intro hc
        apply h'.2
        rw [hc]
        exact List.mem_map.mpr ⟨e, he', rfl⟩
      rcases ih h'.1 e he' with ⟨h1, h2⟩
      constructor
      · show e.2.1 = if e0.1 = e.1 then e0.2.1 else getWins g e.1
        rw [if_neg hne]
        exact h1
      · show e.2.2 = if e0.1 = e.1 then e0.2.2 else getLoses g e.1
        rw [if_neg hne]
        exact h2

/-- Closed form of win lists in the middle of construction. -/
theorem getWins_build_upto (dice done rest innerDone innerRest : List Die)
    (cur : Die) (hnd : dice.Nodup) (hsplit : dice = done ++ cur :: rest)
    (A : Die) :
    getWins (build_upto dice done cur innerDone) A
      = (if A ∈ done then dice.filter (fun o => is_best A o) else [])
        ++ (if A = cur then innerDone.filter (fun o => is_best cur o)
            else []) := by
  have hdone_nd : done.Nodup := by
    have h2 := hsplit ▸ hnd
    exact (List.nodup_append.mp h2).1
  unfold build_upto
  rw [getWins_foldl_inner, getWins_foldl_outer,
    show getWins [] A = [] from rfl, List.nil_append,
    flatMap_ite_single _ done hdone_nd A]

/-- Closed form of lose lists in the middle of construction. -/
theorem getLoses_build_upto (dice done rest innerDone innerRest : List Die)
    (cur : Die) (hnd : dice.Nodup) (hsplit : dice = done ++ cur :: rest)
    (hinner : dice = innerDone ++ innerRest) (B : Die) :
    getLoses (build_upto dice done cur innerDone) B
      = (if B ∈ dice then done.filter (fun t => is_best t B) else [])
        ++ (if B ∈ innerDone ∧ is_best cur B = true then [cur] else []) := by
  have hinner_nd : innerDone.Nodup := by
    have h2 := hinner ▸ hnd
    exact (List.nodup_append.mp h2).1
  unfold build_upto
  rw [getLoses_foldl_inner, getLoses_foldl_outer,
    show getLoses [] B = [] from rfl, List.nil_append,
    flatMap_filter_key dice hnd done B,
    filter_eq_key_single _ innerDone hinner_nd B]
  by_cases hc : B ∈ innerDone ∧ is_best cur B = true
  · rw [if_pos hc, if_pos hc]
    rfl
  · rw [if_neg hc, if_neg hc]
    rfl

theorem lists_nodup_build_upto (dice done rest innerDone innerRest : List Die)
    (cur : Die) (hnd : dice.Nodup) (hsplit : dice = done ++ cur :: rest)
    (hinner : dice = innerDone ++ innerRest) :
    ∀ e ∈ build_upto dice done cur innerDone,
      e.2.1.Nodup ∧ e.2.2.Nodup := by
  have hds := hsplit ▸ hnd
  rw [List.nodup_append] at hds
  have hdone_nd : done.Nodup := hds.1
  have hcur_done : cur ∉ done :=
    fun hc => hds.2.2 hc (List.mem_cons_self cur rest)
  have hinner_nd : innerDone.Nodup := by
    have h2 := hinner ▸ hnd
    exact (List.nodup_append.mp h2).1
  intro e he
  rcases entry_lookup _ (keys_nodup_build_upto dice done cur innerDone) e he
    with ⟨h1, h2⟩
  rw [h1, h2,
    getWins_build_upto dice done rest innerDone innerRest cur hnd hsplit,
    getLoses_build_upto dice done rest innerDone innerRest cur hnd hsplit
      hinner]
  constructor
  · by_cases hA : e.1 ∈ done
    · rw [if_pos hA]
      by_cases hAc : e.1 = cur
      · exact absurd (hAc ▸ hA) hcur_done
      · rw [if_neg hAc, List.append_nil]
        exact hnd.filter _
    · rw [if_neg hA, List.nil_append]
      by_cases hAc : e.1 = cur
      · rw [if_pos hAc]
        exact hinner_nd.filter _
      · rw [if_neg hAc]
        exact List.Pairwise.nil
  · by_cases hB : e.1 ∈ dice
    · rw [if_pos hB]
      by_cases hc : e.1 ∈ innerDone ∧ is_best cur e.1 = true
      · rw [if_pos hc]
        refine List.nodup_append.mpr
          ⟨hdone_nd.filter _, List.nodup_singleton cur, ?_⟩
        intro a ha hat
        rw [List.mem_singleton] at hat
        subst hat
        exact hcur_done (List.mem_of_mem_filter ha)
      · rw [if_neg hc, List.append_nil]
        exact hdone_nd.filter _
    · rw [if_neg hB, List.nil_append]
      by_cases hc : e.1 ∈ innerDone ∧ is_best cur e.1 = true
      · rw [if_pos hc]
        exact List.nodup_singleton cur
      · rw [if_neg hc]
        exact List.Pairwise.nil

theorem lists_nodup_build_graph (dice : List Die) (hnd : dice.Nodup) :
    ∀ e ∈ build_graph dice, e.2.1.Nodup ∧ e.2.2.Nodup := by
  intro e he
  rcases entry_lookup _ (keys_nodup_build_graph dice) e he with ⟨h1, h2⟩
  rw [h1, h2, getWins_build_graph dice hnd, getLoses_build_graph dice hnd]
  constructor
  · by_cases hA : e.1 ∈ dice
    · rw [if_pos hA]
      exact hnd.filter _
    · rw [if_neg hA]
      exact List.Pairwise.nil
  · by_cases hB : e.1 ∈ dice
    · rw [if_pos hB]
      exact hnd.filter _
    · rw [if_neg hB]
      exact List.Pairwise.nil

/-- C9: the win/lose relation is symmetric: for dice `A`, `B` in the graph,
`B` is in `A`'s win list iff `A` is in `B`'s lose list — both right after
construction and again after `clean` returns. -/
theorem graph_symmetric (dice : List Die) (hnd : dice.Nodup) :
    (∀ A B : Die, A ∈ keys (build_graph dice) → B ∈ keys (build_graph dice) →
      (B ∈ getWins (build_graph dice) A ↔
        A ∈ getLoses (build_graph dice) B)) ∧
    (∀ A B : Die, A ∈ keys (clean (build_graph dice)) →
      B ∈ keys (clean (build_graph dice)) →
      (B ∈ getWins (clean (build_graph dice)) A ↔
        A ∈ getLoses (clean (build_graph dice)) B)) := by
  have hbuild : ∀ A B : Die,
      B ∈ getWins (build_graph dice) A ↔
        A ∈ getLoses (build_graph dice) B := by
    intro A B
    rw [getWins_build_graph dice hnd A, getLoses_build_graph dice hnd B]
    by_cases hA : A ∈ dice
    · by_cases hB : B ∈ dice
      · rw [if_pos hA, if_pos hB, List.mem_filter, List.mem_filter]
        constructor
        · rintro ⟨_, hb⟩
          exact ⟨hA, hb⟩
        · rintro ⟨_, hb⟩
          exact ⟨hB, hb⟩
      · rw [if_pos hA, if_neg hB, List.mem_filter]
        constructor
        · rintro ⟨hBd, _⟩
          exact absurd hBd hB
        · intro hc
          exact absurd hc (List.not_mem_nil A)
    · rw [if_neg hA]
      by_cases hB : B ∈ dice
      · rw [if_pos hB, List.mem_filter]
        constructor
        · intro hc
          exact absurd hc (List.not_mem_nil B)
        · rintro ⟨hAd, _⟩
          exact absurd hAd hA
      · rw [if_neg hB]
        constructor
        · intro hc
          exact absurd hc (List.not_mem_nil B)
        · intro hc
          exact absurd hc (List.not_mem_nil A)
  have hclean : (∀ e ∈ clean (build_graph dice),
        e.2.1.Nodup ∧ e.2.2.Nodup) ∧
      (∀ A B : Die, B ∈ getWins (clean (build_graph dice)) A ↔
        A ∈ getLoses (clean (build_graph dice)) B) :=
    clean_induction
      (fun g => (∀ e ∈ g, e.2.1.Nodup ∧ e.2.2.Nodup) ∧
        (∀ A B : Die, B ∈ getWins g A ↔ A ∈ getLoses g B))
      (fun g hg => ⟨lists_nodup_pass g hg.1, symAll_pass g hg.1 hg.2⟩)
      (build_graph dice).length (build_graph dice) (le_refl _)
      ⟨lists_nodup_build_graph dice hnd, hbuild⟩
  exact ⟨fun A B _ _ => hbuild A B, fun A B _ _ => hclean.2 A B⟩

/-- Witness for `graph_symmetric` on the three intransitive dice
`(3,3,3)`, `(5,2,2)`, `(4,4,1)`, whose cyclic graph `clean` keeps. -/
theorem graph_symmetric_witness :
    ([[3,3,3],[5,2,2],[4,4,1]] : List Die).Nodup ∧
    (([3,3,3] : Die) ∈ keys (build_graph [[3,3,3],[5,2,2],[4,4,1]]) ∧
      ([5,2,2] : Die) ∈ keys (build_graph [[3,3,3],[5,2,2],[4,4,1]])) ∧
    (([3,3,3] : Die) ∈ keys (clean (build_graph [[3,3,3],[5,2,2],[4,4,1]])) ∧
      ([5,2,2] : Die) ∈ keys (clean (build_graph [[3,3,3],[5,2,2],[4,4,1]]))) ∧
    (([5,2,2] : Die) ∈ getWins (build_graph [[3,3,3],[5,2,2],[4,4,1]]) [3,3,3]
      ↔ ([3,3,3] : Die) ∈
          getLoses (build_graph [[3,3,3],[5,2,2],[4,4,1]]) [5,2,2]) ∧
    (([5,2,2] : Die) ∈
        getWins (clean (build_graph [[3,3,3],[5,2,2],[4,4,1]])) [3,3,3]
      ↔ ([3,3,3] : Die) ∈
          getLoses (clean (build_graph [[3,3,3],[5,2,2],[4,4,1]])) [5,2,2]) := by
  have hc : clean (build_graph [[3,3,3],[5,2,2],[4,4,1]])
      = build_graph [[3,3,3],[5,2,2],[4,4,1]] :=
    clean_of_empty _ (by decide)
  have h := graph_symmetric [[3,3,3],[5,2,2],[4,4,1]] (by decide)
  refine ⟨by decide, ⟨by decide, by decide⟩, ⟨?_, ?_⟩,
    h.1 [3,3,3] [5,2,2] (by decide) (by decide), ?_⟩
  · rw [hc]
    decide
  · rw [hc]
    decide
  · exact h.2 [3,3,3] [5,2,2] (by rw [hc]; decide) (by rw [hc]; decide)

/-- C10: every win list and every lose list is duplicate-free at every
point of construction (after any outer-loop prefix `done` and inner-loop
prefix `innerDone`), after construction completes, and after `clean` —
each ordered pair of dice is evaluated once, so each opponent is appended
to a given list at most once. -/
theorem win_lose_lists_nodup (dice done rest innerDone innerRest : List Die)
    (cur : Die) (hnd : dice.Nodup) (hsplit : dice = done ++ cur :: rest)
    (hinner : dice = innerDone ++ innerRest) :
    (∀ e ∈ build_upto dice done cur innerDone,
      e.2.1.Nodup ∧ e.2.2.Nodup) ∧
    (∀ e ∈ build_graph dice, e.2.1.Nodup ∧ e.2.2.Nodup) ∧
    (∀ e ∈ clean (build_graph dice), e.2.1.Nodup ∧ e.2.2.Nodup) :=
  ⟨lists_nodup_build_upto dice done rest innerDone innerRest cur hnd hsplit
      hinner,
    lists_nodup_build_graph dice hnd,
    clean_induction (fun g => ∀ e ∈ g, e.2.1.Nodup ∧ e.2.2.Nodup)
      lists_nodup_pass (build_graph dice).length (build_graph dice)
      (le_refl _) (lists_nodup_build_graph dice hnd)⟩

/-- Witness for `win_lose_lists_nodup` on the die list `[(0), (1)]`, midway
through the first outer iteration. -/
theorem win_lose_lists_nodup_witness :
    ([[0],[1]] : List Die).Nodup ∧
    ([[0],[1]] : List Die) = [] ++ [0] :: [[1]] ∧
    ([[0],[1]] : List Die) = [[0]] ++ [[1]] ∧
    ((∀ e ∈ build_upto [[0],[1]] [] [0] [[0]],
        e.2.1.Nodup ∧ e.2.2.Nodup) ∧
      (∀ e ∈ build_graph [[0],[1]], e.2.1.Nodup ∧ e.2.2.Nodup) ∧
      (∀ e ∈ clean (build_graph [[0],[1]]), e.2.1.Nodup ∧ e.2.2.Nodup)) :=
  ⟨by decide, rfl, rfl,
    win_lose_lists_nodup [[0],[1]] [] [[1]] [[0]] [[1]] [0]
      (by decide) rfl rfl⟩
